import Mathlib

/-!
Shallow embedding of the `beetle-vec` crate (`src/lib.rs`): a growable vector
built on a boxed slice of possibly-uninitialized slots.

A slot (`MaybeUninit<T>`) is modelled as `Option T` (`none` = uninitialized),
so `Box<[MaybeUninit<T>]>` becomes `List (Option T)`.  Machine integers
(`usize`) are modelled as `Nat`; the sizes appearing here are far from
`usize::MAX`, so wrap-around is not observable.  An operation that can panic
or run into undefined behaviour (reading an uninitialized slot as `T`,
out-of-bounds slice indexing, `unchecked_sub` underflow) returns `Option`,
with `none` marking the panicking / UB run.
-/

namespace BVec

/-- Model of `Vec<T>` (lib.rs lines 3-12): `items` is the backing storage
(`Box<[MaybeUninit<T>]>`), `len` the number of elements tracked as live. -/
structure Vec (T : Type) where
  items : List (Option T)
  len : Nat
deriving DecidableEq

variable {T : Type}

/-- The derived `Default` instance (line 3): empty boxed slice, length 0. -/
def emptyVec : Vec T := ⟨[], 0⟩

/-- `Vec::cap` (lines 242-244): length of the backing slice. -/
def cap (v : Vec T) : Nat := v.items.length

/-- `Vec::spare_capacity` (lines 248-250): `self.cap() - self.len()`
(`usize` subtraction; on the `len ≤ cap` states produced by the API it
agrees with truncated `Nat` subtraction). -/
def spare_capacity (v : Vec T) : Nat := cap v - v.len

/-- `Vec::is_empty` (lines 261-263). -/
def is_empty (v : Vec T) : Bool := v.len == 0

/-- Doubling loop computing `usize::next_power_of_two`: starting from `p`,
double until `≥ n`.  `fuel` only bounds the recursion; any `fuel` with
`n ≤ p * 2 ^ fuel` makes the loop reach its answer. -/
def npotGo : Nat → Nat → Nat → Nat
  | 0, _, p => p
  | fuel + 1, n, p => if n ≤ p then p else npotGo fuel n (2 * p)

/-- `usize::next_power_of_two`: the smallest power of two `≥ n`
(`1` for `n = 0`, as in Rust). -/
def next_power_of_two (n : Nat) : Nat := npotGo n n 1

/-- Reading a run of slots as live `T` values: `none` when some slot is
uninitialized (reading it as `T` is undefined behaviour in the source). -/
def readSlots : List (Option T) → Option (List T)
  | [] => some []
  | none :: _ => none
  | some x :: rest => (readSlots rest).map (fun s => x :: s)

/-- `Vec::as_slice` (lines 146-149): `&self.items[..self.len]` reinterpreted
as `&[T]`.  The slicing panics when `len > cap`; the resulting slice is the
first `len` slots, each of which must be live for its elements to be read. -/
def as_slice (v : Vec T) : Option (List T) :=
  if v.len ≤ cap v then readSlots (v.items.take v.len) else none

/-- `Vec::realloc_to_desired_cap` (lines 52-65): allocate `new_capacity`
uninitialized slots, copy each element of `as_slice` into position `i`, swap
the blocks.  The write `empty_space[i] = MaybeUninit::new(e)` panics when
`i ≥ new_capacity`, i.e. when `len > new_capacity`; otherwise writing
positions `0..len` of `replicate new_capacity none` yields
`s.map some ++ replicate (new_capacity - len) none`. -/
def realloc_to_desired_cap (v : Vec T) (new_capacity : Nat) : Option (Vec T) :=
  (as_slice v).bind (fun s =>
    if s.length ≤ new_capacity then
      some ⟨s.map some ++ List.replicate (new_capacity - s.length) none, v.len⟩
    else none)

/-- `Vec::realloc_if_spare_cap_lt_n` (lines 67-71). -/
def realloc_if_spare_cap_lt_n (v : Vec T) (n : Nat) : Option (Vec T) :=
  if spare_capacity v < n then realloc_to_desired_cap v (next_power_of_two n)
  else some v

/-- `Vec::realloc` (lines 73-76). -/
def realloc (v : Vec T) : Option (Vec T) :=
  realloc_to_desired_cap v (next_power_of_two (cap v + 1))

/-- `Vec::realloc_if_len_gte_cap` (lines 82-89), as a state transition (its
`bool` return value is not consumed by any caller; the `debug_assert!` inside
it is modelled separately by `realloc_if_len_gte_cap_assert`). -/
def realloc_if_len_gte_cap (v : Vec T) : Option (Vec T) :=
  if cap v ≤ v.len then realloc v else some v

/-- Outcome of the `debug_assert!(self.len >= self.cap())` executed inside
`realloc_if_len_gte_cap` (line 86) right after the reallocation: `some b`
means the function returns with the asserted condition evaluating to `b`
(`some true` also when the branch, and hence the assertion, is not reached). -/
def realloc_if_len_gte_cap_assert (v : Vec T) : Option Bool :=
  if cap v ≤ v.len then (realloc v).map (fun w => decide (cap w ≤ w.len))
  else some true

/-- `Vec::shrink_to_fit` (lines 92-94). -/
def shrink_to_fit (v : Vec T) : Option (Vec T) :=
  realloc_to_desired_cap v v.len

/-- `Vec::push` (lines 116-119) with `first_uninit` (99-105) and
`uninint_slice` (108-113) inlined: reallocate if `len ≥ cap`, take the first
slot of `items[len..]` (the `expect` panics when that slice is empty, i.e.
when `len ≥ cap` still holds), write the value there, increment `len`. -/
def push (v : Vec T) (x : T) : Option (Vec T) :=
  (realloc_if_len_gte_cap v).bind (fun w =>
    if w.len < cap w then some ⟨w.items.set w.len (some x), w.len + 1⟩
    else none)

/-- `Vec::push_unchecked` (lines 190-193): `len += 1` then write through
`last_unchecked_mut`, i.e. through `as_slice_mut` (which panics when the new
`len` exceeds `cap`) at index `len - 1`. -/
def push_unchecked (v : Vec T) (x : T) : Option (Vec T) :=
  if v.len + 1 ≤ cap v then some ⟨v.items.set v.len (some x), v.len + 1⟩
  else none

/-- `Vec::extend_unchecked` (lines 198-202): `push_unchecked` each item. -/
def extend_unchecked (v : Vec T) : List T → Option (Vec T)
  | [] => some v
  | x :: xs => (push_unchecked v x).bind (fun w => extend_unchecked w xs)

/-- `Vec::extend_naive` (lines 136-140): `push` each item. -/
def extend_naive (v : Vec T) : List T → Option (Vec T)
  | [] => some v
  | x :: xs => (push v x).bind (fun w => extend_naive w xs)

/-- `Vec::extend` (lines 122-131).  An iterator is modelled by the list `xs`
of items it will produce together with the lower bound `hint` reported by
`size_hint().0`; `iter.by_ref().take(hint)` consumes `xs.take hint` and the
residual iterator produces `xs.drop hint`. -/
def extend (v : Vec T) (xs : List T) (hint : Nat) : Option (Vec T) :=
  (realloc_if_spare_cap_lt_n v hint).bind (fun w =>
    (extend_unchecked w (xs.take hint)).bind (fun u =>
      extend_naive u (xs.drop hint)))

/-- `Vec::get_unchecked` (lines 173-178): `&self.items[index]` (panics when
`index ≥ cap`) reinterpreted as `&T` (UB when the slot is uninitialized). -/
def get_unchecked (v : Vec T) (index : Nat) : Option T :=
  (v.items.getD index none)

/-- `Vec::last_unchecked` (lines 220-222): `get_unchecked(len.unchecked_sub 1)`;
the subtraction underflows (UB) when `len = 0`. -/
def last_unchecked (v : Vec T) : Option T :=
  if v.len = 0 then none else get_unchecked v (v.len - 1)

/-- `Vec::pop` (lines 232-238): on the empty vector return `None` (modelled
as `some (none, v)`: normal return, absent value); otherwise decrement `len`
first and only then read through `last_unchecked` on the shrunk vector.
The outer `none` marks a panicking / UB run of `last_unchecked`. -/
def pop (v : Vec T) : Option (Option T × Vec T) :=
  if v.len = 0 then some (none, v)
  else
    (last_unchecked ⟨v.items, v.len - 1⟩).map
      (fun x => (some x, (⟨v.items, v.len - 1⟩ : Vec T)))

/-- `Vec::get` (lines 159-161): `as_slice().get(index)`.  The outer `Option`
is the panic/UB monad of `as_slice`, the inner one the bounds check. -/
def get (v : Vec T) (index : Nat) : Option (Option T) :=
  (as_slice v).map (fun s => s[index]?)

/-- `Vec::last` (lines 206-208): `get(len.checked_sub(1)?)`; the `?` returns
`None` (absent, not a panic) when `len = 0`. -/
def last (v : Vec T) : Option (Option T) :=
  if v.len = 0 then some none else get v (v.len - 1)

/-- The `Clone` implementation (lines 14-24), available only for `T : Copy`:
duplicate the backing slice verbatim (every slot, uninitialized suffix
included) and copy `len`. -/
def clone (v : Vec T) : Vec T := ⟨v.items, v.len⟩

/-- Well-formedness: the invariant of §3 of the spec, maintained by the safe
API: `len ≤ cap` and every slot of the prefix `[0, len)` is live. -/
def WF (v : Vec T) : Prop :=
  v.len ≤ cap v ∧ ∀ i, i < v.len → (v.items.getD i none).isSome = true

instance (v : Vec T) : Decidable (WF v) := by
  unfold WF; infer_instance

/-- One call of the crate's public API, for stating invariants over arbitrary
call sequences.  Read-only operations are included: they leave the state
unchanged (their result is tracked only for the panic/no-panic distinction). -/
inductive Op (T : Type) where
  | push (x : T)
  | pop
  | extend (xs : List T) (hint : Nat)
  | extendNaive (xs : List T)
  | shrinkToFit
  | cloneOp
  | getOp (index : Nat)
  | getMutOp (index : Nat)
  | lastOp
  | lastMutOp
  | asSliceOp
  | asSliceMutOp
  | pushUnchecked (x : T)
  | extendUnchecked (xs : List T)
deriving DecidableEq

/-- Effect of one API call on the vector (`none` = the call panics / is UB). -/
def step (v : Vec T) : Op T → Option (Vec T)
  | .push x => push v x
  | .pop => (pop v).map Prod.snd
  | .extend xs hint => extend v xs hint
  | .extendNaive xs => extend_naive v xs
  | .shrinkToFit => shrink_to_fit v
  | .cloneOp => some (clone v)
  | .getOp index => (get v index).map (fun _ => v)
  | .getMutOp index => (get v index).map (fun _ => v)
  | .lastOp => (last v).map (fun _ => v)
  | .lastMutOp => (last v).map (fun _ => v)
  | .asSliceOp => (as_slice v).map (fun _ => v)
  | .asSliceMutOp => (as_slice v).map (fun _ => v)
  | .pushUnchecked x => push_unchecked v x
  | .extendUnchecked xs => extend_unchecked v xs

/-- Run a sequence of API calls from a given state. -/
def runFrom (v : Vec T) : List (Op T) → Option (Vec T)
  | [] => some v
  | op :: ops => (step v op).bind (fun w => runFrom w ops)

/-- Run a sequence of API calls from the empty (default) vector. -/
def runOps (ops : List (Op T)) : Option (Vec T) := runFrom emptyVec ops

/-! Basic lemmas about the growth function and slot reading. -/

theorem npotGo_ge (n : Nat) :
    ∀ (fuel p : Nat), 0 < p → n ≤ p * 2 ^ fuel → n ≤ npotGo fuel n p := by
  intro fuel
  induction fuel with
  | zero => intro p _ hle; simpa [npotGo] using hle
  | succ f ih =>
    intro p hp hle
    unfold npotGo
    by_cases h : n ≤ p
    · rw [if_pos h]; exact h
    · simp only [h, if_false]
      refine ih (2 * p) (by omega) ?_
      calc n ≤ p * 2 ^ (f + 1) := hle
        _ = 2 * p * 2 ^ f := by ring

theorem le_next_power_of_two (n : Nat) : n ≤ next_power_of_two n := by
  refine npotGo_ge n n 1 one_pos ?_
  rw [one_mul]
  exact Nat.le_of_lt (Nat.lt_two_pow n)

theorem readSlots_map_some (s : List T) : readSlots (s.map some) = some s := by
  induction s with
  | nil => rfl
  | cons x t ih => simp [readSlots, ih]

theorem readSlots_eq {l : List (Option T)} {s : List T}
    (h : readSlots l = some s) : l = s.map some := by
  induction l generalizing s with
  | nil => simp [readSlots] at h; simp [← h]
  | cons o t ih =>
    cases o with
    | none => simp [readSlots] at h
    | some x =>
      simp only [readSlots, Option.map_eq_some'] at h
      obtain ⟨t', ht', rfl⟩ := h
      simp [ih ht']

theorem readSlots_exists {l : List (Option T)}
    (h : ∀ i, i < l.length → (l.getD i none).isSome = true) :
    ∃ s, readSlots l = some s := by
  induction l with
  | nil => exact ⟨[], rfl⟩
  | cons o t ih =>
    have h0 : o.isSome = true := by simpa using h 0 (by simp)
    obtain ⟨x, rfl⟩ := Option.isSome_iff_exists.mp h0
    obtain ⟨s, hs⟩ := ih (fun i hi => by simpa using h (i + 1) (by simpa using hi))
    exact ⟨x :: s, by simp [readSlots, hs]⟩

/-! Lemmas about `as_slice` and well-formedness. -/

theorem as_slice_some_spec {v : Vec T} {s : List T} (h : as_slice v = some s) :
    v.len ≤ cap v ∧ s.length = v.len ∧ v.items.take v.len = s.map some := by
  unfold as_slice at h
  by_cases hle : v.len ≤ cap v
  · rw [if_pos hle] at h
    have heq := readSlots_eq h
    have hle' : v.len ≤ v.items.length := hle
    have hlt : (v.items.take v.len).length = v.len := by
      simpa [List.length_take] using hle'
    refine ⟨hle, ?_, heq⟩
    rw [heq] at hlt
    simpa using hlt
  · rw [if_neg hle] at h; exact absurd h (by simp)

theorem as_slice_of_WF {v : Vec T} (h : WF v) :
    ∃ s, as_slice v = some s ∧ s.length = v.len ∧ v.items.take v.len = s.map some := by
  have hall : ∀ i, i < (v.items.take v.len).length →
      ((v.items.take v.len).getD i none).isSome = true := by
    intro i hi
    have hi' : i < v.len := by
      simp only [List.length_take] at hi; omega
    have heq : (v.items.take v.len).getD i none = v.items.getD i none := by
      simp only [List.getD_eq_getElem?_getD]
      rw [List.getElem?_take_of_lt hi']
    rw [heq]
    exact h.2 i hi'
  obtain ⟨s, hs⟩ := readSlots_exists hall
  have hsl : as_slice v = some s := by
    unfold as_slice; rw [if_pos h.1]; exact hs
  exact ⟨s, hsl, (as_slice_some_spec hsl).2.1, (as_slice_some_spec hsl).2.2⟩

theorem WF_isSome_as_slice {v : Vec T} (h : WF v) : (as_slice v).isSome = true := by
  obtain ⟨s, hs, -, -⟩ := as_slice_of_WF h
  simp [hs]

theorem WF_of_as_slice_some {v : Vec T} {s : List T} (h : as_slice v = some s) : WF v := by
  obtain ⟨hle, hlen, htake⟩ := as_slice_some_spec h
  refine ⟨hle, fun i hi => ?_⟩
  have h2 : v.items[i]? = (s.map some)[i]? := by
    rw [← htake]
    exact (List.getElem?_take_of_lt hi).symm
  have h3 : i < s.length := by omega
  rw [List.getD_eq_getElem?_getD, h2, List.getElem?_map, List.getElem?_eq_getElem h3]
  simp

/-! Lemmas about reallocation. -/

theorem realloc_to_desired_cap_eq {v : Vec T} {s : List T} (hs : as_slice v = some s)
    {c : Nat} (hc : v.len ≤ c) :
    realloc_to_desired_cap v c
      = some ⟨s.map some ++ List.replicate (c - v.len) none, v.len⟩ := by
  obtain ⟨-, hlen, -⟩ := as_slice_some_spec hs
  unfold realloc_to_desired_cap
  rw [hs, Option.some_bind, if_pos (by omega : s.length ≤ c), hlen]

theorem realloc_spec {v : Vec T} (h : WF v) {c : Nat} (hc : v.len ≤ c) :
    ∃ w, realloc_to_desired_cap v c = some w ∧ w.len = v.len ∧ cap w = c ∧ WF w ∧
      (∀ i, i < v.len → w.items[i]? = v.items[i]?) ∧ as_slice w = as_slice v := by
  obtain ⟨s, hs, hlen, htake⟩ := as_slice_of_WF h
  refine ⟨⟨s.map some ++ List.replicate (c - v.len) none, v.len⟩,
    realloc_to_desired_cap_eq hs hc, rfl, ?_, ?_, ?_, ?_⟩
  case refine_1 =>
    simp only [cap, List.length_append, List.length_map, List.length_replicate, hlen]
    omega
  all_goals
    have hpre : ∀ i, i < v.len →
        (s.map some ++ List.replicate (c - v.len) none)[i]? = v.items[i]? := by
      intro i hi
      rw [List.getElem?_append_left (by simp only [List.length_map]; omega),
        ← htake, List.getElem?_take_of_lt hi]
  case refine_2 =>
    refine ⟨by simp [cap, hlen], fun i hi => ?_⟩
    rw [List.getD_eq_getElem?_getD, hpre i hi, ← List.getD_eq_getElem?_getD]
    exact h.2 i hi
  case refine_3 => exact hpre
  case refine_4 =>
    have htk : (s.map some ++ List.replicate (c - v.len) none).take v.len = s.map some :=
      List.take_left' (by simp [hlen])
    rw [hs]
    unfold as_slice
    rw [if_pos (by simp only [cap, List.length_append, List.length_map,
      List.length_replicate]; omega), htk, readSlots_map_some]

theorem realloc_to_desired_cap_some {v w : Vec T} {c : Nat}
    (h : realloc_to_desired_cap v c = some w) :
    WF v ∧ v.len ≤ c ∧ WF w ∧ w.len = v.len ∧ cap w = c ∧ as_slice w = as_slice v := by
  obtain ⟨s, hsv, hbody⟩ := Option.bind_eq_some.mp h
  have hWF := WF_of_as_slice_some hsv
  have hlen := (as_slice_some_spec hsv).2.1
  have hc : v.len ≤ c := by
    by_cases hcle : s.length ≤ c
    · omega
    · rw [if_neg hcle] at hbody; exact absurd hbody (by simp)
  obtain ⟨w', hw', hl, hcap, hWFw, -, hslice⟩ := realloc_spec hWF hc
  rw [h] at hw'
  injection hw' with he
  subst he
  exact ⟨hWF, hc, hWFw, hl, hcap, hslice⟩

/-! Lemmas about writing one element into the first free slot. -/

theorem set_slot_spec {u : Vec T} (x : T) (hWF : WF u) (hlt : u.len < cap u) :
    WF ⟨u.items.set u.len (some x), u.len + 1⟩ ∧
    (u.items.set u.len (some x))[u.len]? = some (some x) ∧
    (∀ i, i < u.len → (u.items.set u.len (some x))[i]? = u.items[i]?) ∧
    (u.items.set u.len (some x)).length = cap u := by
  have hlen : u.len < u.items.length := hlt
  have hset : (u.items.set u.len (some x))[u.len]? = some (some x) :=
    List.getElem?_set_self hlen
  have hpre : ∀ i, i < u.len → (u.items.set u.len (some x))[i]? = u.items[i]? :=
    fun i hi => List.getElem?_set_ne (Nat.ne_of_gt hi)
  refine ⟨⟨?_, ?_⟩, hset, hpre, by simp [cap]⟩
  · show u.len + 1 ≤ (u.items.set u.len (some x)).length
    simp only [List.length_set]
    omega
  · intro i hi
    have hi2 : i < u.len + 1 := hi
    show ((u.items.set u.len (some x)).getD i none).isSome = true
    rw [List.getD_eq_getElem?_getD]
    rcases Nat.lt_or_ge i u.len with hi' | hi'
    · rw [hpre i hi', ← List.getD_eq_getElem?_getD]
      exact hWF.2 i hi'
    · have hieq : i = u.len := by omega
      subst hieq
      rw [hset]
      simp

/-! The main specification of `push`. -/

theorem push_spec {v : Vec T} (x : T) (h : WF v) :
    ∃ w, push v x = some w ∧ WF w ∧ w.len = v.len + 1 ∧
      w.items[v.len]? = some (some x) ∧
      (∀ i, i < v.len → w.items[i]? = v.items[i]?) ∧
      cap w = if v.len = cap v then next_power_of_two (cap v + 1) else cap v := by
  by_cases hge : cap v ≤ v.len
  · have hlenv : v.len = cap v := Nat.le_antisymm h.1 hge
    have hc : v.len ≤ next_power_of_two (cap v + 1) :=
      le_trans (le_trans h.1 (Nat.le_succ _)) (le_next_power_of_two _)
    obtain ⟨u, hu, hul, hucap, hWFu, hupre, -⟩ := realloc_spec h hc
    have hlt : u.len < cap u := by
      have := le_next_power_of_two (cap v + 1)
      omega
    obtain ⟨hW, hslot, hpre, hcap⟩ := set_slot_spec x hWFu hlt
    refine ⟨⟨u.items.set u.len (some x), u.len + 1⟩, ?_, hW,
      congrArg Nat.succ hul, ?_, ?_, ?_⟩
    · unfold push realloc_if_len_gte_cap realloc
      rw [if_pos hge, hu, Option.some_bind, if_pos hlt]
    · show (u.items.set u.len (some x))[v.len]? = some (some x)
      rw [← hul]; exact hslot
    · intro i hi
      show (u.items.set u.len (some x))[i]? = v.items[i]?
      rw [hpre i (by omega), hupre i hi]
    · rw [if_pos hlenv]
      show (u.items.set u.len (some x)).length = next_power_of_two (cap v + 1)
      rw [hcap, hucap]
  · have hlt : v.len < cap v := Nat.lt_of_not_le hge
    obtain ⟨hW, hslot, hpre, hcap⟩ := set_slot_spec x h hlt
    refine ⟨⟨v.items.set v.len (some x), v.len + 1⟩, ?_, hW, rfl, hslot, hpre, ?_⟩
    · unfold push realloc_if_len_gte_cap
      rw [if_neg hge, Option.some_bind, if_pos hlt]
    · rw [if_neg (Nat.ne_of_lt hlt)]
      exact hcap

theorem push_some_WF {v w : Vec T} {x : T} (hWF : WF v) (h : push v x = some w) : WF w := by
  obtain ⟨w', h', hW, -⟩ := push_spec x hWF
  rw [h] at h'
  injection h' with he
  rw [← he] at hW
  exact hW

/-! Preservation of well-formedness by every operation that returns normally. -/

theorem push_unchecked_some {v w : Vec T} {x : T} (h : push_unchecked v x = some w) :
    v.len + 1 ≤ cap v ∧ w = ⟨v.items.set v.len (some x), v.len + 1⟩ := by
  unfold push_unchecked at h
  by_cases hle : v.len + 1 ≤ cap v
  · rw [if_pos hle] at h
    injection h with he
    exact ⟨hle, he.symm⟩
  · rw [if_neg hle] at h
    exact absurd h (by simp)

theorem push_unchecked_some_WF {v w : Vec T} {x : T} (hWF : WF v)
    (h : push_unchecked v x = some w) : WF w := by
  obtain ⟨hle, rfl⟩ := push_unchecked_some h
  exact (set_slot_spec x hWF hle).1

theorem extend_unchecked_some_WF {xs : List T} :
    ∀ {v w : Vec T}, WF v → extend_unchecked v xs = some w → WF w := by
  induction xs with
  | nil =>
    intro v w hWF h
    unfold extend_unchecked at h
    injection h with he
    rw [← he]
    exact hWF
  | cons x t ih =>
    intro v w hWF h
    unfold extend_unchecked at h
    obtain ⟨u, hu, hrest⟩ := Option.bind_eq_some.mp h
    exact ih (push_unchecked_some_WF hWF hu) hrest

theorem extend_naive_some_WF {xs : List T} :
    ∀ {v w : Vec T}, WF v → extend_naive v xs = some w → WF w := by
  induction xs with
  | nil =>
    intro v w hWF h
    unfold extend_naive at h
    injection h with he
    rw [← he]
    exact hWF
  | cons x t ih =>
    intro v w hWF h
    unfold extend_naive at h
    obtain ⟨u, hu, hrest⟩ := Option.bind_eq_some.mp h
    exact ih (push_some_WF hWF hu) hrest

theorem realloc_if_spare_some_WF {v w : Vec T} {n : Nat} (hWF : WF v)
    (h : realloc_if_spare_cap_lt_n v n = some w) : WF w := by
  unfold realloc_if_spare_cap_lt_n at h
  by_cases hlt : spare_capacity v < n
  · rw [if_pos hlt] at h
    exact (realloc_to_desired_cap_some h).2.2.1
  · rw [if_neg hlt] at h
    injection h with he
    rw [← he]
    exact hWF

theorem shrink_to_fit_some_WF {v w : Vec T} (h : shrink_to_fit v = some w) : WF w :=
  (realloc_to_desired_cap_some h).2.2.1

theorem pop_some_WF {v : Vec T} {p : Option T × Vec T} (hWF : WF v)
    (h : pop v = some p) : WF p.2 := by
  unfold pop at h
  by_cases h0 : v.len = 0
  · rw [if_pos h0] at h
    injection h with he
    rw [← he]
    exact hWF
  · rw [if_neg h0] at h
    obtain ⟨y, -, he⟩ := Option.map_eq_some'.mp h
    have hgoal : WF (⟨v.items, v.len - 1⟩ : Vec T) := by
      constructor
      · show v.len - 1 ≤ v.items.length
        have h1 : v.len ≤ v.items.length := hWF.1
        omega
      · intro i hi
        have hi' : i < v.len - 1 := hi
        exact hWF.2 i (by omega)
    rw [← he]
    exact hgoal

theorem step_some_WF {v w : Vec T} {op : Op T} (hWF : WF v) (h : step v op = some w) :
    WF w := by
  cases op with
  | push x => exact push_some_WF hWF h
  | pop =>
    obtain ⟨p, hp, he⟩ := Option.map_eq_some'.mp h
    rw [← he]
    exact pop_some_WF hWF hp
  | extend xs hint =>
    obtain ⟨u, hu, h2⟩ := Option.bind_eq_some.mp h
    obtain ⟨t, ht, h3⟩ := Option.bind_eq_some.mp h2
    exact extend_naive_some_WF
      (extend_unchecked_some_WF (realloc_if_spare_some_WF hWF hu) ht) h3
  | extendNaive xs => exact extend_naive_some_WF hWF h
  | shrinkToFit => exact shrink_to_fit_some_WF h
  | cloneOp =>
    injection h with he
    rw [← he]
    exact hWF
  | getOp index =>
    obtain ⟨-, -, he⟩ := Option.map_eq_some'.mp h
    rw [← he]; exact hWF
  | getMutOp index =>
    obtain ⟨-, -, he⟩ := Option.map_eq_some'.mp h
    rw [← he]; exact hWF
  | lastOp =>
    obtain ⟨-, -, he⟩ := Option.map_eq_some'.mp h
    rw [← he]; exact hWF
  | lastMutOp =>
    obtain ⟨-, -, he⟩ := Option.map_eq_some'.mp h
    rw [← he]; exact hWF
  | asSliceOp =>
    obtain ⟨-, -, he⟩ := Option.map_eq_some'.mp h
    rw [← he]; exact hWF
  | asSliceMutOp =>
    obtain ⟨-, -, he⟩ := Option.map_eq_some'.mp h
    rw [← he]; exact hWF
  | pushUnchecked x => exact push_unchecked_some_WF hWF h
  | extendUnchecked xs => exact extend_unchecked_some_WF hWF h

theorem runFrom_some_WF {ops : List (Op T)} :
    ∀ {v w : Vec T}, WF v → runFrom v ops = some w → WF w := by
  induction ops with
  | nil =>
    intro v w hWF h
    unfold runFrom at h
    injection h with he
    rw [← he]
    exact hWF
  | cons op rest ih =>
    intro v w hWF h
    unfold runFrom at h
    obtain ⟨u, hu, hrest⟩ := Option.bind_eq_some.mp h
    exact ih (step_some_WF hWF hu) hrest

theorem WF_emptyVec : WF (emptyVec : Vec T) :=
  ⟨Nat.le_refl 0, fun i hi => absurd hi (Nat.not_lt_zero i)⟩

/-! Settling the claims. -/

/-- C1: the claim says that on a non-empty array `pop` decreases the length by
one and returns the value stored at the old last index, and that popping twice
from `[1,2,3,4,5]` returns 5 then 4 leaving live prefix `[1,2,3]`.  The code
decrements `len` before calling `last_unchecked` (which reads index
`len - 1` of the already-shrunk vector), so from `[1,2,3,4,5]` (capacity 8) the
two pops return `4` then `3` — not the removed values `5` then `4` — even
though the live prefix afterwards is `[1,2,3]` as claimed. -/
theorem C1_pop_returns_wrong_value :
    pop (⟨[some 1, some 2, some 3, some 4, some 5, none, none, none], 5⟩ : Vec Nat)
      = some (some 4, ⟨[some 1, some 2, some 3, some 4, some 5, none, none, none], 4⟩) ∧
    pop (⟨[some 1, some 2, some 3, some 4, some 5, none, none, none], 4⟩ : Vec Nat)
      = some (some 3, ⟨[some 1, some 2, some 3, some 4, some 5, none, none, none], 3⟩) ∧
    as_slice (⟨[some 1, some 2, some 3, some 4, some 5, none, none, none], 3⟩ : Vec Nat)
      = some [1, 2, 3] :=
  ⟨rfl, rfl, rfl⟩

/-- C2: the claim says `push x` then `pop` yields `x` and restores the old
length.  On the array `[1]` (capacity 1), `push 2` produces `[1,2]`, but the
following `pop` returns `1` — the element *before* the pushed one — not `2`.
The length does return to its pre-push value 1. -/
theorem C2_push_pop_roundtrip_fails :
    push (⟨[some 1], 1⟩ : Vec Nat) 2 = some ⟨[some 1, some 2], 2⟩ ∧
    pop (⟨[some 1, some 2], 2⟩ : Vec Nat) = some (some 1, ⟨[some 1, some 2], 1⟩) :=
  ⟨rfl, rfl⟩

/-- C3: the claim says `extend` appends exactly the iterator's items for any
accurate, under-reported or zero lower bound.  With the array `[1,2,3]` of
capacity 4 (the state reached by pushing 1,2,3 from empty) and an iterator
producing `[4,5,6,7]` with the accurate lower bound 4, `extend` reallocates to
`next_power_of_two 4 = 4`, leaving only 1 spare slot, and the unchecked push
of the second item indexes out of bounds: the call panics instead of
appending the items. -/
theorem C3_extend_accurate_hint_panics :
    extend (⟨[some 1, some 2, some 3, none], 3⟩ : Vec Nat) [4, 5, 6, 7] 4 = none :=
  rfl

/-- C4: the claim says `realloc_if_spare_cap_lt_n v n` always terminates
normally with `spare_capacity ≥ n`.  On an array of 3 live elements with
capacity 4 and `n = 4`, the call reallocates to `next_power_of_two 4 = 4`
(ignoring the current length) and returns with `spare_capacity = 1 < 4`. -/
theorem C4_ensure_spare_insufficient :
    realloc_if_spare_cap_lt_n (⟨[some 9, some 8, some 7, none], 3⟩ : Vec Nat) 4
      = some ⟨[some 9, some 8, some 7, none], 3⟩ ∧
    spare_capacity (⟨[some 9, some 8, some 7, none], 3⟩ : Vec Nat) = 1 ∧
    ¬ 4 ≤ spare_capacity (⟨[some 9, some 8, some 7, none], 3⟩ : Vec Nat) :=
  ⟨rfl, rfl, by decide⟩

/-- C5: the claim says the assertion inside `realloc_if_len_gte_cap` never
fails.  The assertion is `debug_assert!(self.len >= self.cap())`, checked
*after* the reallocation; reallocation makes `len < cap`, so the asserted
condition evaluates to `false` on every reallocating call — here on the empty
vector (`len = 0 = cap`), where after reallocation `cap = 1`. -/
theorem C5_debug_assert_fails :
    realloc_if_len_gte_cap_assert (⟨[], 0⟩ : Vec Nat) = some false :=
  rfl

/-- C6: for every well-formed array (the representation invariant holds for
every array reachable through the API), `push x` succeeds: the new length is
the old length plus one, the slot at the old length holds `x`, the slots
below it are unchanged, and the capacity is `next_power_of_two (cap + 1)`
when the array was full and unchanged otherwise. -/
theorem C6_push_always_succeeds (v : Vec T) (x : T) (h : WF v) :
    ∃ w, push v x = some w ∧ w.len = v.len + 1 ∧
      w.items[v.len]? = some (some x) ∧
      (∀ i, i < v.len → w.items[i]? = v.items[i]?) ∧
      cap w = if v.len = cap v then next_power_of_two (cap v + 1) else cap v := by
  obtain ⟨w, h1, -, h3, h4, h5, h6⟩ := push_spec x h
  exact ⟨w, h1, h3, h4, h5, h6⟩

/-- Witness for C6, the spec's concrete scenario D: an array of capacity 8
and length 8; pushing a 9th element reallocates to capacity
`next_power_of_two 9 = 16`. -/
theorem C6_push_always_succeeds_witness :
    WF (⟨[some 1, some 2, some 3, some 4, some 5, some 6, some 7, some 8], 8⟩ : Vec Nat) ∧
    next_power_of_two 9 = 16 ∧
    (∃ w, push (⟨[some 1, some 2, some 3, some 4, some 5, some 6, some 7, some 8], 8⟩ :
        Vec Nat) 9 = some w ∧
      w.len = (⟨[some 1, some 2, some 3, some 4, some 5, some 6, some 7, some 8], 8⟩ :
        Vec Nat).len + 1 ∧
      w.items[(⟨[some 1, some 2, some 3, some 4, some 5, some 6, some 7, some 8], 8⟩ :
        Vec Nat).len]? = some (some 9) ∧
      (∀ i, i < (⟨[some 1, some 2, some 3, some 4, some 5, some 6, some 7, some 8], 8⟩ :
          Vec Nat).len →
        w.items[i]? = (⟨[some 1, some 2, some 3, some 4, some 5, some 6, some 7, some 8],
          8⟩ : Vec Nat).items[i]?) ∧
      cap w = if (⟨[some 1, some 2, some 3, some 4, some 5, some 6, some 7, some 8], 8⟩ :
          Vec Nat).len
          = cap ⟨[some 1, some 2, some 3, some 4, some 5, some 6, some 7, some 8], 8⟩ then
        next_power_of_two
          (cap (⟨[some 1, some 2, some 3, some 4, some 5, some 6, some 7, some 8], 8⟩ :
            Vec Nat) + 1)
      else cap (⟨[some 1, some 2, some 3, some 4, some 5, some 6, some 7, some 8], 8⟩ :
        Vec Nat)) :=
  ⟨by decide, by decide, C6_push_always_succeeds _ 9 (by decide)⟩

/-- C7: starting from the empty (default) array, `len ≤ cap` holds after
every call in every sequence of API operations that returns normally; the
sequences may mix the safe operations with the unchecked ones (whose stated
preconditions are exactly what makes them return normally). -/
theorem C7_len_le_cap_invariant (ops : List (Op T)) (w : Vec T)
    (h : runOps ops = some w) : w.len ≤ cap w :=
  (runFrom_some_WF WF_emptyVec h).1

/-- Witness for C7: a concrete mixed sequence of safe and unchecked calls. -/
theorem C7_len_le_cap_invariant_witness :
    runOps ([.push 1, .push 2, .push 3, .pushUnchecked 4, .pop, .extend [7] 1,
        .extendNaive [5], .shrinkToFit, .lastOp] : List (Op Nat))
      = some ⟨[some 1, some 2, some 3, some 7, some 5], 5⟩ ∧
    (⟨[some 1, some 2, some 3, some 7, some 5], 5⟩ : Vec Nat).len
      ≤ cap ⟨[some 1, some 2, some 3, some 7, some 5], 5⟩ :=
  ⟨by decide,
    C7_len_le_cap_invariant
      ([.push 1, .push 2, .push 3, .pushUnchecked 4, .pop, .extend [7] 1,
        .extendNaive [5], .shrinkToFit, .lastOp] : List (Op Nat))
      ⟨[some 1, some 2, some 3, some 7, some 5], 5⟩ (by decide)⟩

/-- C8: for every well-formed array, `shrink_to_fit` succeeds, the capacity
afterwards equals the length (0 for the empty array), the live prefix is
unchanged, and a second `shrink_to_fit` returns exactly the same state. -/
theorem C8_shrink_to_fit_spec (v : Vec T) (h : WF v) :
    ∃ w, shrink_to_fit v = some w ∧ cap w = v.len ∧ w.len = v.len ∧
      as_slice w = as_slice v ∧ shrink_to_fit w = some w := by
  obtain ⟨s, hs, hlen, htake⟩ := as_slice_of_WF h
  have h1 : shrink_to_fit v
      = some ⟨s.map some ++ List.replicate (v.len - v.len) none, v.len⟩ :=
    realloc_to_desired_cap_eq hs (Nat.le_refl v.len)
  have hsimp : (⟨s.map some ++ List.replicate (v.len - v.len) none, v.len⟩ : Vec T)
      = ⟨s.map some, v.len⟩ := by
    simp
  rw [hsimp] at h1
  have hcap : cap (⟨s.map some, v.len⟩ : Vec T) = v.len := by
    simp [cap, hlen]
  have hslice : as_slice (⟨s.map some, v.len⟩ : Vec T) = some s := by
    unfold as_slice
    rw [if_pos (by simp [cap, hlen]),
      List.take_of_length_le (by simp [hlen])]
    exact readSlots_map_some s
  refine ⟨⟨s.map some, v.len⟩, h1, hcap, rfl, by rw [hslice, hs], ?_⟩
  have h2 : realloc_to_desired_cap (⟨s.map some, v.len⟩ : Vec T) v.len
      = some ⟨s.map some ++ List.replicate (v.len - v.len) none, v.len⟩ :=
    realloc_to_desired_cap_eq hslice (Nat.le_refl v.len)
  rw [hsimp] at h2
  exact h2

/-- Witness for C8: shrinking an array of one live element and capacity 2. -/
theorem C8_shrink_to_fit_spec_witness :
    WF (⟨[some 1, none], 1⟩ : Vec Nat) ∧
    (∃ w, shrink_to_fit (⟨[some 1, none], 1⟩ : Vec Nat) = some w ∧
      cap w = (⟨[some 1, none], 1⟩ : Vec Nat).len ∧
      w.len = (⟨[some 1, none], 1⟩ : Vec Nat).len ∧
      as_slice w = as_slice (⟨[some 1, none], 1⟩ : Vec Nat) ∧
      shrink_to_fit w = some w) :=
  ⟨by decide, C8_shrink_to_fit_spec _ (by decide)⟩

/-- C9: `clone` — defined in the source only for trivially copyable element
types (`T : Copy`), a type-class constraint visible in the `impl` header —
returns a new array with the same length, the same capacity, the backing
slots duplicated verbatim (hence an equal live prefix), and leaves the
original untouched (it takes the original by shared reference). -/
theorem C9_clone_spec (v : Vec T) :
    (clone v).len = v.len ∧ cap (clone v) = cap v ∧
    (clone v).items = v.items ∧ as_slice (clone v) = as_slice v :=
  ⟨rfl, rfl, rfl, rfl⟩

/-- C10: the claim says `extend_naive` (push each item in order) produces the
same final state as `extend` over the same items.  On the array
`[10,20,30,40,50]` of capacity 8 with items `[60,70,80,90]` and accurate
lower bound 4, `extend` panics (it reallocates to `next_power_of_two 4 = 4`,
smaller than the length 5, making the element-copying loop index out of
bounds), while `extend_naive` appends all four items normally — so the two
are not equivalent on the code as written. -/
theorem C10_extend_naive_not_equiv_extend :
    extend (⟨[some 10, some 20, some 30, some 40, some 50, none, none, none], 5⟩ : Vec Nat)
      [60, 70, 80, 90] 4 = none ∧
    extend_naive
      (⟨[some 10, some 20, some 30, some 40, some 50, none, none, none], 5⟩ : Vec Nat)
      [60, 70, 80, 90]
      = some ⟨[some 10, some 20, some 30, some 40, some 50, some 60, some 70, some 80,
          some 90, none, none, none, none, none, none, none], 9⟩ ∧
    as_slice (⟨[some 10, some 20, some 30, some 40, some 50, some 60, some 70, some 80,
          some 90, none, none, none, none, none, none, none], 9⟩ : Vec Nat)
      = some [10, 20, 30, 40, 50, 60, 70, 80, 90] :=
  ⟨rfl, rfl, rfl⟩

end BVec
